import Mathlib

/-!
Verification development for the file_uploader CLI (src/cli/main.c).

The C program is shallowly embedded: pure helpers become Lean functions on
List Char / String, the semaphore-backed bounded job queue becomes an explicit
state record with counting-semaphore counters, and the producer/worker
pipeline becomes a small-step transition relation whose reachable states are
analysed through invariants.  C strings are modelled as List Char (a C string
never contains the NUL terminator, so the end of the list plays the role of
the terminator).  Machine integers that matter here (sizes, counters) are
modelled as Nat; none of the relevant code paths overflow-wrap.
-/

set_option autoImplicit false

/-- UPLOAD_QUEUE_SIZE from main.c line 22: capacity of the bounded queue. -/
def UPLOAD_QUEUE_SIZE : Nat := 100

/-- MAX_CONCURRENT_UPLOADS from main.c line 21: maximal worker-pool size,
also the number of wake-up posts performed by shutdown_queue. -/
def MAX_CONCURRENT_UPLOADS : Nat := 4

/-- MAX_FILE_SIZE from main.c line 20: the 100 MiB upload ceiling in bytes. -/
def MAX_FILE_SIZE : Nat := 100 * 1024 * 1024

/-- An upload job (struct upload_job, main.c lines 30-34): absolute file path
and logical server-side subdirectory.  The intrusive next pointer of the C
struct is replaced by the queue holding a List of jobs. -/
structure Job where
  path : String
  subdir : String
deriving DecidableEq, Repr

/-- Model of the C library strstr as used by main.c: returns the suffix of
hay starting at the first occurrence of nee, or none when nee does not occur.
As in C, an empty needle matches at the start. -/
def strstr (hay nee : List Char) : Option (List Char) :=
  if nee.isPrefixOf hay then some hay
  else
    match hay with
    | [] => none
    | _ :: t => strstr t nee

/-- Model of the C library strchr restricted to characters present in the
string: returns the suffix starting at the first occurrence of c. -/
def strchr (s : List Char) (c : Char) : Option (List Char) :=
  match s with
  | [] => none
  | a :: t => if a = c then some (a :: t) else strchr t c

/-- should_upload_file (main.c lines 524-530): rejects names whose first
character is a dot and names in which strstr finds ".tmp", ".swp" or "~";
accepts everything else.  The short-circuit disjunction of the C condition is
written as nested ifs.  (An empty C string has first byte NUL, not a dot, so
the empty name falls through to the substring checks.) -/
def should_upload_file (filename : List Char) : Bool :=
  if filename.head? = some '.' then false
  else if (strstr filename ".tmp".data).isSome then false
  else if (strstr filename ".swp".data).isSome then false
  else if (strstr filename "~".data).isSome then false
  else true

/- ### Tolerant JSON message extraction (main.c lines 73-114) -/

/-- The whitespace skip of extract_json_message (main.c lines 85-88): skips
spaces and tabs; stops at any other character or at the end of the string. -/
def skipSpaceTab : List Char → List Char
  | [] => []
  | c :: t => if c = ' ' ∨ c = '\t' then skipSpaceTab t else c :: t

/-- The closing-quote scan of extract_json_message (main.c lines 93-111):
given the characters after the opening quote, returns the message text up to
the closing quote, skipping over backslash-escaped pairs verbatim; none when
the string ends before an unescaped closing quote (including a trailing lone
backslash, whose next byte is the NUL terminator). -/
def readQuoted : List Char → Option (List Char)
  | [] => none
  | [c] => if c = '"' then some [] else none
  | c :: d :: t2 =>
    if c = '"' then some []
    else if c = '\\' then (readQuoted t2).map (fun m => c :: d :: m)
    else (readQuoted (d :: t2)).map (fun m => c :: m)

/-- extract_json_message (main.c lines 73-114): find the first occurrence of
the text "message" in quotes, find the following colon, skip spaces and tabs,
demand a double quote, and scan the quoted string honoring backslash escapes;
any failed stage yields none instead of an error. -/
def extract_json_message (json : List Char) : Option (List Char) :=
  match strstr json ("\"message\"".data) with
  | none => none
  | some ms =>
    match strchr ms ':' with
    | none => none
    | some cs =>
      match skipSpaceTab cs.tail with
      | [] => none
      | c :: t => if c = '"' then readQuoted t else none

/- ### Bounded job queue (main.c lines 36-263) -/

/-- State of an upload_queue_t (main.c lines 36-44).  The head/tail linked
list becomes the list jobs (head = first element); items and space are the
counting-semaphore counters; shutdown is the flag.  sentinels is a ghost
instrumentation counter, not present in the C struct: it counts how many
"no more work" sentinel returns have been taken from dequeue_upload since
shutdown, which lets the wake-up accounting of shutdown_queue be stated. -/
structure QState where
  jobs : List Job
  items : Nat
  space : Nat
  shutdown : Bool
  sentinels : Nat
deriving DecidableEq, Repr

/-- init_upload_queue (main.c lines 137-158): empty list, items semaphore 0,
space semaphore UPLOAD_QUEUE_SIZE, shutdown clear. -/
def init_upload_queue : QState :=
  { jobs := [], items := 0, space := UPLOAD_QUEUE_SIZE,
    shutdown := false, sentinels := 0 }

/-- enqueue_upload (main.c lines 185-222).  sem_wait(space) blocks while the
space counter is zero — modelled as the none result; note the C code performs
this wait BEFORE looking at the shutdown flag.  Once a space token is held:
if shutdown is set the token is posted straight back and the call fails
(returns -1, modelled false) with the state net unchanged; otherwise the job
is appended at the tail and one items token is posted (return 0, modelled
true).  malloc failure and strncpy truncation are not modelled. -/
def enqueue_upload (s : QState) (file_path subdir : String) :
    Option (Bool × QState) :=
  if s.space = 0 then none
  else if s.shutdown = true then some (false, s)
  else some (true,
    { s with jobs := s.jobs ++ [{ path := file_path, subdir := subdir }],
             items := s.items + 1, space := s.space - 1 })

/-- dequeue_upload (main.c lines 227-249).  sem_wait(items) blocks while the
items counter is zero — modelled as none.  With a token held: if shutdown is
set and the list is empty, return the NULL sentinel WITHOUT posting space
(the early return skips sem_post); otherwise pop the head (or return NULL if
the list is empty, a branch unreachable in reachable states) and post one
space token. -/
def dequeue_upload (s : QState) : Option (Option Job × QState) :=
  if s.items = 0 then none
  else if s.shutdown = true ∧ s.jobs = [] then
    some (none, { s with items := s.items - 1, sentinels := s.sentinels + 1 })
  else
    match s.jobs with
    | [] => some (none, { s with items := s.items - 1, space := s.space + 1 })
    | j :: rest =>
      some (some j,
        { s with jobs := rest, items := s.items - 1, space := s.space + 1 })

/-- shutdown_queue (main.c lines 254-263): set the shutdown flag, then post
the items semaphore MAX_CONCURRENT_UPLOADS times to wake every blocked
consumer. -/
def shutdown_queue (s : QState) : QState :=
  { s with shutdown := true, items := s.items + MAX_CONCURRENT_UPLOADS }

/-- One interleaving step on the queue: some thread completes an
enqueue_upload or a dequeue_upload, or the coordinator (which calls
shutdown_queue exactly once, after enumeration) requests shutdown. -/
inductive QStep : QState → QState → Prop
  | enq {s : QState} (fp sd : String) (r : Bool) {s2 : QState} :
      enqueue_upload s fp sd = some (r, s2) → QStep s s2
  | deq {s : QState} (r : Option Job) {s2 : QState} :
      dequeue_upload s = some (r, s2) → QStep s s2
  | shut {s : QState} : s.shutdown = false → QStep s (shutdown_queue s)

/-- Reachability of a queue state from the freshly initialised queue. -/
def QReach (s : QState) : Prop :=
  Relation.ReflTransGen QStep init_upload_queue s

/-- Queue invariant: the space semaphore complements the queue length with
respect to the capacity; before shutdown the items semaphore counts exactly
the queued jobs; after shutdown it additionally carries the
MAX_CONCURRENT_UPLOADS wake-up posts minus the sentinels already taken. -/
def QueueInv (s : QState) : Prop :=
  s.space + s.jobs.length = UPLOAD_QUEUE_SIZE
  ∧ s.sentinels ≤ MAX_CONCURRENT_UPLOADS
  ∧ (s.shutdown = false → s.sentinels = 0 ∧ s.items = s.jobs.length)
  ∧ (s.shutdown = true →
      s.items + s.sentinels = s.jobs.length + MAX_CONCURRENT_UPLOADS)

/-- jobs argument validation (main.c lines 710-715): the -j option is
rejected unless 1 <= jobs <= MAX_CONCURRENT_UPLOADS. -/
def jobs_arg_ok (jobs : Int) : Bool :=
  if jobs < 1 ∨ jobs > (MAX_CONCURRENT_UPLOADS : Int) then false else true

/-- Repeatedly enqueue a fixed job into a fresh queue (ignoring a blocked
attempt), used to exhibit concrete reachable full-queue states. -/
def enqueueForce (s : QState) : QState :=
  match enqueue_upload s "file" "" with
  | some (_, s') => s'
  | none => s

/-- The state of a fresh queue after n pushes of the fixed job. -/
def pushN : Nat → QState
  | 0 => init_upload_queue
  | n + 1 => enqueueForce (pushN n)

/- ### Upload executor (main.c lines 282-296 and 333-466) -/

/-- Abstract metadata of the file a worker is about to upload: whether stat
succeeds, the size reported by stat, and whether access(R_OK) succeeds. -/
structure FileMeta where
  statOk : Bool
  size : Nat
  readable : Bool
deriving DecidableEq, Repr

/-- Outcome of the transport call curl_easy_perform: a transport-level
failure (res different from CURLE_OK), or an HTTP response with status code
and body. -/
inductive CurlOutcome where
  | transportFailed
  | httpResp (code : Nat) (body : List Char)
deriving DecidableEq, Repr

/-- Result of one upload_file_optimized invocation: the returned success
flag, whether the transport was invoked at all, the increments applied to
the shared g_files_uploaded / g_files_failed counters (each path increments
exactly one of them once, under the stats mutex), and the message extracted
from the body on a non-200 response. -/
structure AttemptResult where
  success : Bool
  networkInvoked : Bool
  uploadedDelta : Nat
  failedDelta : Nat
  loggedMessage : Option (List Char)
deriving DecidableEq, Repr

/-- check_file_size (main.c lines 282-296): fails when stat fails or when
the size strictly exceeds MAX_FILE_SIZE. -/
def check_file_size (m : FileMeta) : Bool :=
  if m.statOk = false then false
  else if MAX_FILE_SIZE < m.size then false
  else true

/-- upload_file_optimized (main.c lines 333-466): size precondition, then
readability precondition — both failing before any transport call — then the
transport; CURLE_OK with HTTP 200 is the only success.  The mime-form
allocation failures of the C code (which also fail before the transport
call) are not modelled: the abstract form construction always succeeds. -/
def upload_file_optimized (file_path subdir : String) (m : FileMeta)
    (out : CurlOutcome) : AttemptResult :=
  if check_file_size m = false then
    { success := false, networkInvoked := false,
      uploadedDelta := 0, failedDelta := 1, loggedMessage := none }
  else if m.readable = false then
    { success := false, networkInvoked := false,
      uploadedDelta := 0, failedDelta := 1, loggedMessage := none }
  else
    match out with
    | CurlOutcome.transportFailed =>
      { success := false, networkInvoked := true,
        uploadedDelta := 0, failedDelta := 1, loggedMessage := none }
    | CurlOutcome.httpResp code body =>
      if code = 200 then
        { success := true, networkInvoked := true,
          uploadedDelta := 1, failedDelta := 0, loggedMessage := none }
      else
        { success := false, networkInvoked := true,
          uploadedDelta := 0, failedDelta := 1,
          loggedMessage := extract_json_message body }

/- ### Directory walker (main.c lines 535-597) -/

/-- Abstract directory tree: a directory listing is a list of entries, each
a regular file or a sub-directory (other entry kinds, which the walker
ignores, are omitted). -/
inductive FsEntry where
  | file (name : String)
  | dir (name : String) (entries : List FsEntry)

/-- The logical server-side subdirectory computed for an entry (main.c lines
572-576): prefix/name, or just name when the prefix is empty. -/
def extendSubdir (pre entryName : String) : String :=
  if pre = "" then entryName else pre ++ "/" ++ entryName

/-- collect_files_for_upload (main.c lines 535-597) as a pure function from
a listing to the sequence of jobs enqueued, in traversal order.  Entries
named "." or ".." are skipped; a sub-directory is recursed into with the
extended prefix; a regular file passing should_upload_file is enqueued with
the path dir_path/name and the subdir_prefix THE CALL RECEIVED (not the
extended one).  stat failures and over-long paths are not modelled. -/
def collect_files_for_upload (dir_path pre : String) : List FsEntry → List Job
  | [] => []
  | FsEntry.file n :: rest =>
    (if n = "." ∨ n = ".." then []
     else if should_upload_file n.data then
       [{ path := dir_path ++ "/" ++ n, subdir := pre }]
     else []) ++ collect_files_for_upload dir_path pre rest
  | FsEntry.dir n es :: rest =>
    (if n = "." ∨ n = ".." then []
     else collect_files_for_upload (dir_path ++ "/" ++ n)
            (extendSubdir pre n) es)
    ++ collect_files_for_upload dir_path pre rest

/-- Number of regular-file entries the walker considers (skipping the
"." and ".." names), over the whole tree. -/
def countFs : List FsEntry → Nat
  | [] => 0
  | FsEntry.file n :: rest =>
    (if n = "." ∨ n = ".." then 0 else 1) + countFs rest
  | FsEntry.dir n es :: rest =>
    (if n = "." ∨ n = ".." then 0 else countFs es) + countFs rest

/-- FileAt ds f es: the listing es contains, along the chain of nested
directories named ds, a regular file named f. -/
inductive FileAt : List String → String → List FsEntry → Prop
  | here (f : String) (es : List FsEntry) :
      FsEntry.file f ∈ es → FileAt [] f es
  | deeper (d : String) (sub : List FsEntry) (ds : List String) (f : String)
      (es : List FsEntry) :
      FsEntry.dir d sub ∈ es → FileAt ds f sub → FileAt (d :: ds) f es

/-- Join a base path with a chain of entry names using the "/" separator,
as the walker does with snprintf("%s/%s"). -/
def joinPath (base : String) (parts : List String) : String :=
  parts.foldl (fun a b => a ++ "/" ++ b) base

/- ### Producer/worker pipeline (main.c lines 489-519 and 602-652) -/

/-- Global state of one upload session: the shared queue, the suffix of the
walker job list not yet enqueued, and the two shared statistics counters. -/
structure PState where
  q : QState
  pending : List Job
  uploaded : Nat
  failed : Nat
deriving DecidableEq, Repr

/-- One interleaving step of the pipeline with worker-pool size W: the
producer (collect_files_for_upload) enqueues its next job — whatever the
queue answers, the producer moves on, matching main.c lines 584-588 where a
rejected job is only logged; a worker w < W dequeues a job and runs
upload_file_optimized on it with some file metadata and transport outcome,
adding the increments to the shared counters under the stats mutex; a worker
receives the no-more-work sentinel and exits; or the coordinator, once the
producer has finished, requests shutdown (main.c line 643). -/
inductive PStep (W : Nat) : PState → PState → Prop
  | produce {s : PState} (j : Job) (rest : List Job) (r : Bool) {q2 : QState} :
      s.pending = j :: rest →
      enqueue_upload s.q j.path j.subdir = some (r, q2) →
      PStep W s { s with q := q2, pending := rest }
  | work {s : PState} (w : Nat) (j : Job) (m : FileMeta) (out : CurlOutcome)
      {q2 : QState} :
      w < W →
      dequeue_upload s.q = some (some j, q2) →
      PStep W s
        { s with
          q := q2,
          uploaded := s.uploaded
            + (upload_file_optimized j.path j.subdir m out).uploadedDelta,
          failed := s.failed
            + (upload_file_optimized j.path j.subdir m out).failedDelta }
  | workerExit {s : PState} (w : Nat) {q2 : QState} :
      w < W →
      dequeue_upload s.q = some (none, q2) →
      PStep W s { s with q := q2 }
  | shutdownStep {s : PState} :
      s.pending = [] → s.q.shutdown = false →
      PStep W s { s with q := shutdown_queue s.q }

/-- Initial pipeline state for a directory upload: fresh queue, the walker
job list pending, both counters zero (main.c lines 602-641). -/
def init_pipeline (dir_path pre : String) (es : List FsEntry) : PState :=
  { q := init_upload_queue,
    pending := collect_files_for_upload dir_path pre es,
    uploaded := 0, failed := 0 }

/-- Reachability under pipeline steps with worker-pool size W. -/
def PReach (W : Nat) (s0 s : PState) : Prop :=
  Relation.ReflTransGen (PStep W) s0 s

/-- Pipeline invariant for a session of N walker jobs: attempts recorded
plus jobs in flight (queued or still pending) account for all N jobs, the
queue invariant holds, and shutdown is only requested after the producer has
finished. -/
def PInv (N : Nat) (s : PState) : Prop :=
  s.uploaded + s.failed + s.q.jobs.length + s.pending.length = N
  ∧ QueueInv s.q
  ∧ (s.q.shutdown = true → s.pending = [])

/-- The final pipeline state of the one-file one-worker witness run. -/
def pipelineWitnessState : PState :=
  { q := { jobs := [], items := 4, space := 100, shutdown := true,
           sentinels := 0 },
    pending := [], uploaded := 1, failed := 0 }

/- ### Coordinator and process exit (main.c lines 738-794) -/

/-- What stat reports for the command-line target (main.c lines 766-784):
inaccessible (stat fails, early exit 1), a directory, a regular file, or
anything else. -/
inductive TargetKind where
  | inaccessible
  | directory
  | regularFile
  | otherKind
deriving DecidableEq, Repr

/-- The return value of upload_dir_parallel (main.c line 651): success
exactly when at least one file was queued. -/
def upload_dir_parallel_success (files_queued : Nat) : Bool :=
  decide (0 < files_queued)

/-- The success variable of main after processing (main.c lines 774-784). -/
def main_success_flag : TargetKind → Nat → Bool → Bool
  | TargetKind.inaccessible, _, _ => false
  | TargetKind.directory, files_queued, _ =>
    upload_dir_parallel_success files_queued
  | TargetKind.regularFile, _, fileOk => fileOk
  | TargetKind.otherKind, _, _ => false

/-- main (main.c lines 766-794) reduced to its observable outcome: the exit
code and the printed overall-result line (none when stat on the target fails
and main returns 1 before any summary).  Both summary line and exit code use
the condition success AND zero recorded failures. -/
def main_model (k : TargetKind) (files_queued : Nat) (fileOk : Bool)
    (failed : Nat) : Nat × Option String :=
  match k with
  | TargetKind.inaccessible => (1, none)
  | k2 =>
    (if main_success_flag k2 files_queued fileOk = true ∧ failed = 0
     then 0 else 1,
     some (if main_success_flag k2 files_queued fileOk = true ∧ failed = 0
           then "SUCCESS" else "PARTIAL/FAILURE"))

/- ### Helper lemmas about isPrefixOf and strstr -/

theorem isPrefixOf_iff_append (p l : List Char) :
    p.isPrefixOf l = true ↔ ∃ t, l = p ++ t := by
  induction p generalizing l with
  | nil => simp [List.isPrefixOf]
  | cons a p ih =>
    cases l with
    | nil => simp [List.isPrefixOf]
    | cons b l =>
      simp only [List.isPrefixOf, Bool.and_eq_true, beq_iff_eq, ih, List.cons_append,
        List.cons.injEq]
      constructor
      · rintro ⟨rfl, t, rfl⟩
        exact ⟨t, rfl, rfl⟩
      · rintro ⟨t, rfl, rfl⟩
        exact ⟨rfl, t, rfl⟩

theorem strstr_isSome_iff (hay nee : List Char) :
    (strstr hay nee).isSome = true ↔ ∃ l r, hay = l ++ nee ++ r := by
  induction hay with
  | nil =>
    rw [strstr]
    split
    · rename_i h
      rw [isPrefixOf_iff_append] at h
      obtain ⟨t, ht⟩ := h
      simp only [Option.isSome_some, true_iff]
      exact ⟨[], t, by simpa using ht⟩
    · rename_i h
      simp only [Option.isSome_none, Bool.false_eq_true, false_iff]
      rintro ⟨l, r, hlr⟩
      apply h
      rw [isPrefixOf_iff_append]
      have : l = ([] : List Char) := by
        cases l with
        | nil => rfl
        | cons x xs => simp at hlr
      subst this
      exact ⟨r, by simpa using hlr⟩
  | cons a t ih =>
    rw [strstr]
    split
    · rename_i h
      rw [isPrefixOf_iff_append] at h
      obtain ⟨u, hu⟩ := h
      simp only [Option.isSome_some, true_iff]
      exact ⟨[], u, by simpa using hu⟩
    · rename_i h
      rw [ih]
      constructor
      · rintro ⟨l, r, rfl⟩
        exact ⟨a :: l, r, rfl⟩
      · rintro ⟨l, r, hlr⟩
        cases l with
        | nil =>
          exfalso
          apply h
          rw [isPrefixOf_iff_append]
          exact ⟨r, by simpa using hlr⟩
        | cons x xs =>
          simp only [List.cons_append, List.cons.injEq] at hlr
          exact ⟨xs, r, hlr.2⟩

/-- strstr finds the FIRST occurrence: the returned suffix starts with the
needle, and no strictly earlier position carries an occurrence. -/
theorem strstr_some_first (hay nee ms : List Char) :
    strstr hay nee = some ms →
    ∃ l, hay = l ++ ms ∧ (∃ r, ms = nee ++ r) ∧
      ∀ l2 r2, hay = l2 ++ nee ++ r2 → l.length ≤ l2.length := by
  induction hay with
  | nil =>
    intro h
    rw [strstr] at h
    split at h
    · rename_i hp
      rw [isPrefixOf_iff_append] at hp
      obtain ⟨t, ht⟩ := hp
      cases h
      exact ⟨[], by simp, ⟨t, ht⟩, fun l2 r2 _ => Nat.zero_le _⟩
    · cases h
  | cons a t ih =>
    intro h
    rw [strstr] at h
    split at h
    · rename_i hp
      rw [isPrefixOf_iff_append] at hp
      obtain ⟨u, hu⟩ := hp
      cases h
      exact ⟨[], by simp, ⟨u, hu⟩, fun l2 r2 _ => Nat.zero_le _⟩
    · rename_i hp
      obtain ⟨l, hl, hms, hfirst⟩ := ih h
      refine ⟨a :: l, by simp [hl], hms, ?_⟩
      intro l2 r2 h2
      cases l2 with
      | nil =>
        exfalso
        apply hp
        rw [isPrefixOf_iff_append]
        exact ⟨r2, by simpa using h2⟩
      | cons x xs =>
        simp only [List.cons_append, List.cons.injEq] at h2
        simpa using Nat.succ_le_succ (hfirst xs r2 h2.2)

/-- Fuel-indexed version of the shape lemma for readQuoted, by strong
induction on the length bound. -/
theorem readQuoted_shape_aux :
    ∀ (n : Nat) (s m : List Char), s.length ≤ n → readQuoted s = some m →
      ∃ rest, s = m ++ '"' :: rest := by
  intro n
  induction n with
  | zero =>
    intro s m hlen h
    have : s = [] := List.eq_nil_of_length_eq_zero (Nat.le_zero.mp hlen)
    subst this
    cases h
  | succ n ih =>
    intro s m hlen h
    cases s with
    | nil => cases h
    | cons c t =>
      cases t with
      | nil =>
        rw [readQuoted] at h
        by_cases hc : c = '"'
        · rw [if_pos hc] at h
          cases h
          exact ⟨[], by simp [hc]⟩
        · rw [if_neg hc] at h
          cases h
      | cons d t2 =>
        rw [readQuoted] at h
        by_cases hc : c = '"'
        · rw [if_pos hc] at h
          cases h
          exact ⟨d :: t2, by simp [hc]⟩
        · rw [if_neg hc] at h
          by_cases hbs : c = '\\'
          · rw [if_pos hbs] at h
            cases hq : readQuoted t2 with
            | none =>
              rw [hq] at h
              cases h
            | some m2 =>
              rw [hq, Option.map_some'] at h
              cases h
              have ht2 : t2.length ≤ n := by
                simp only [List.length_cons] at hlen
                omega
              obtain ⟨rest, hrest⟩ := ih t2 m2 ht2 hq
              exact ⟨rest, by simp [hbs, hrest]⟩
          · rw [if_neg hbs] at h
            cases hq : readQuoted (d :: t2) with
            | none =>
              rw [hq] at h
              cases h
            | some m2 =>
              rw [hq, Option.map_some'] at h
              cases h
              have ht : (d :: t2).length ≤ n := by
                simp only [List.length_cons] at hlen ⊢
                omega
              obtain ⟨rest, hrest⟩ := ih (d :: t2) m2 ht hq
              exact ⟨rest, by simp [hrest]⟩

/-- readQuoted only succeeds when the scanned text is followed by a closing
quote: the input decomposes as the returned message plus a quote plus a rest. -/
theorem readQuoted_shape (s m : List Char) :
    readQuoted s = some m → ∃ rest, s = m ++ '"' :: rest :=
  readQuoted_shape_aux s.length s m (Nat.le_refl _)

/-- C7: the File Classifier should_upload_file is a pure total Boolean
predicate on file names: it returns false exactly when the name starts with a
dot or contains ".tmp", ".swp" or "~" as a substring, and returns true on
every other name.  Classifying the same name twice trivially yields the same
result because the model is a function; the last conjunct records this. -/
theorem claim_C7_classifier (n : List Char) :
    (should_upload_file n = false ↔
      (n.head? = some '.'
        ∨ (∃ l r, n = l ++ ".tmp".data ++ r)
        ∨ (∃ l r, n = l ++ ".swp".data ++ r)
        ∨ (∃ l r, n = l ++ "~".data ++ r)))
    ∧ (should_upload_file n = true ↔ ¬ (n.head? = some '.'
        ∨ (∃ l r, n = l ++ ".tmp".data ++ r)
        ∨ (∃ l r, n = l ++ ".swp".data ++ r)
        ∨ (∃ l r, n = l ++ "~".data ++ r)))
    ∧ should_upload_file n = should_upload_file n := by
  have key : should_upload_file n = false ↔
      (n.head? = some '.'
        ∨ (∃ l r, n = l ++ ".tmp".data ++ r)
        ∨ (∃ l r, n = l ++ ".swp".data ++ r)
        ∨ (∃ l r, n = l ++ "~".data ++ r)) := by
    unfold should_upload_file
    by_cases h1 : n.head? = some '.'
    · simp [h1]
    · rw [if_neg h1]
      by_cases h2 : (strstr n ".tmp".data).isSome = true
      · rw [if_pos h2]
        exact iff_of_true rfl (Or.inr (Or.inl ((strstr_isSome_iff _ _).1 h2)))
      · rw [if_neg h2]
        by_cases h3 : (strstr n ".swp".data).isSome = true
        · rw [if_pos h3]
          exact iff_of_true rfl
            (Or.inr (Or.inr (Or.inl ((strstr_isSome_iff _ _).1 h3))))
        · rw [if_neg h3]
          by_cases h4 : (strstr n "~".data).isSome = true
          · rw [if_pos h4]
            exact iff_of_true rfl
              (Or.inr (Or.inr (Or.inr ((strstr_isSome_iff _ _).1 h4))))
          · rw [if_neg h4]
            apply iff_of_false (by simp)
            rintro (hc | hc | hc | hc)
            · exact h1 hc
            · exact h2 ((strstr_isSome_iff _ _).2 hc)
            · exact h3 ((strstr_isSome_iff _ _).2 hc)
            · exact h4 ((strstr_isSome_iff _ _).2 hc)
  refine ⟨key, ?_, rfl⟩
  rw [← key]
  cases h : should_upload_file n <;> simp

/-- C8: on every input string the message extractor proceeds in stages —
find the first occurrence of "message" (first-occurrence property restated in
the second-to-last conjunct), find the following colon, skip spaces and tabs,
demand a quoted string and scan it honoring backslash escapes (last conjunct:
a successful scan really ends at a closing quote) — and any input on which a
stage fails yields none (no message) rather than an error; no stage requires
the body to be valid JSON. -/
theorem claim_C8_extractor :
    (∀ json : List Char, strstr json ("\"message\"".data) = none →
        extract_json_message json = none)
    ∧ (∀ json ms : List Char, strstr json ("\"message\"".data) = some ms →
        strchr ms ':' = none → extract_json_message json = none)
    ∧ (∀ json ms cs : List Char, strstr json ("\"message\"".data) = some ms →
        strchr ms ':' = some cs → skipSpaceTab cs.tail = [] →
        extract_json_message json = none)
    ∧ (∀ (json ms cs t : List Char) (c : Char),
        strstr json ("\"message\"".data) = some ms →
        strchr ms ':' = some cs → skipSpaceTab cs.tail = c :: t → c ≠ '"' →
        extract_json_message json = none)
    ∧ (∀ json ms cs t : List Char, strstr json ("\"message\"".data) = some ms →
        strchr ms ':' = some cs → skipSpaceTab cs.tail = '"' :: t →
        extract_json_message json = readQuoted t)
    ∧ (∀ hay nee ms : List Char, strstr hay nee = some ms →
        ∃ l, hay = l ++ ms ∧ (∃ r, ms = nee ++ r) ∧
          ∀ l2 r2, hay = l2 ++ nee ++ r2 → l.length ≤ l2.length)
    ∧ (∀ s m : List Char, readQuoted s = some m →
        ∃ rest, s = m ++ '"' :: rest) := by
  refine ⟨?_, ?_, ?_, ?_, ?_, strstr_some_first, readQuoted_shape⟩
  · intro json h
    simp only [extract_json_message, h]
  · intro json ms h1 h2
    simp only [extract_json_message, h1, h2]
  · intro json ms cs h1 h2 h3
    simp only [extract_json_message, h1, h2, h3]
  · intro json ms cs t c h1 h2 h3 hc
    simp only [extract_json_message, h1, h2, h3, if_neg hc]
  · intro json ms cs t h1 h2 h3
    simp only [extract_json_message, h1, h2, h3, if_true, if_pos trivial]

/-- C8 witness: a concrete non-JSON body from which the extractor pulls the
message through the successful-stage conjunct of the claim theorem. -/
theorem claim_C8_extractor_witness :
    extract_json_message ("xx\"message\" : \"disk full\" yy".data) =
      some ("disk full".data) := by
  have h := claim_C8_extractor.2.2.2.2.1
      ("xx\"message\" : \"disk full\" yy".data)
      ("\"message\" : \"disk full\" yy".data)
      (": \"disk full\" yy".data)
      ("disk full\" yy".data)
      (by decide) (by decide) (by decide)
  rw [h]
  decide

/- ### Queue operation characterizations -/

theorem enqueue_full (s : QState) (fp sd : String) (h : s.space = 0) :
    enqueue_upload s fp sd = none := by
  unfold enqueue_upload
  rw [if_pos h]

theorem enqueue_shutdown (s : QState) (fp sd : String)
    (hsp : s.space ≠ 0) (hsd : s.shutdown = true) :
    enqueue_upload s fp sd = some (false, s) := by
  unfold enqueue_upload
  rw [if_neg hsp, if_pos hsd]

theorem enqueue_ok (s : QState) (fp sd : String)
    (hsp : s.space ≠ 0) (hsd : s.shutdown = false) :
    enqueue_upload s fp sd = some (true,
      { s with jobs := s.jobs ++ [{ path := fp, subdir := sd }],
               items := s.items + 1, space := s.space - 1 }) := by
  unfold enqueue_upload
  rw [if_neg hsp, if_neg (by simp [hsd])]

theorem enqueue_some_cases (s : QState) (fp sd : String) (r : Bool) (s' : QState)
    (h : enqueue_upload s fp sd = some (r, s')) :
    s.space ≠ 0 ∧
      ((s.shutdown = true ∧ r = false ∧ s' = s) ∨
       (s.shutdown = false ∧ r = true ∧
         s' = { s with jobs := s.jobs ++ [{ path := fp, subdir := sd }],
                       items := s.items + 1, space := s.space - 1 })) := by
  unfold enqueue_upload at h
  split at h
  · exact absurd h (by simp)
  · rename_i hsp
    split at h
    · rename_i hsd
      cases h
      exact ⟨hsp, Or.inl ⟨hsd, rfl, rfl⟩⟩
    · rename_i hsd
      cases h
      exact ⟨hsp, Or.inr ⟨by simpa using hsd, rfl, rfl⟩⟩

theorem dequeue_some_cases (s : QState) (r : Option Job) (s' : QState)
    (h : dequeue_upload s = some (r, s')) :
    s.items ≠ 0 ∧
      ((s.shutdown = true ∧ s.jobs = [] ∧ r = none ∧
          s' = { s with items := s.items - 1, sentinels := s.sentinels + 1 }) ∨
       (s.shutdown = false ∧ s.jobs = [] ∧ r = none ∧
          s' = { s with items := s.items - 1, space := s.space + 1 }) ∨
       (∃ j rest, s.jobs = j :: rest ∧ r = some j ∧
          s' = { s with jobs := rest, items := s.items - 1,
                        space := s.space + 1 })) := by
  unfold dequeue_upload at h
  split at h
  · exact absurd h (by simp)
  · rename_i hit
    split at h
    · rename_i hc
      cases h
      exact ⟨hit, Or.inl ⟨hc.1, hc.2, rfl, rfl⟩⟩
    · rename_i hc
      cases hj : s.jobs with
      | nil =>
        have hsd : s.shutdown = false := by
          cases hb : s.shutdown
          · rfl
          · exact absurd ⟨hb, hj⟩ hc
        simp only [hj] at h
        cases h
        exact ⟨hit, Or.inr (Or.inl ⟨hsd, rfl, rfl, rfl⟩)⟩
      | cons j rest =>
        simp only [hj] at h
        cases h
        exact ⟨hit, Or.inr (Or.inr ⟨j, rest, rfl, rfl, rfl⟩)⟩

/- ### Queue invariant -/

theorem queueInv_init : QueueInv init_upload_queue := by
  unfold QueueInv
  refine ⟨by decide, by decide, ?_, ?_⟩
  · intro _
    exact ⟨rfl, rfl⟩
  · intro h
    cases h

theorem qstep_inv (s s' : QState) (h : QStep s s') (hI : QueueInv s) :
    QueueInv s' := by
  obtain ⟨h1, h2, h3, h4⟩ := hI
  cases h with
  | enq fp sd r he =>
    obtain ⟨hsp, hcase⟩ := enqueue_some_cases _ fp sd r _ he
    rcases hcase with ⟨hsd, _, rfl⟩ | ⟨hsd, _, rfl⟩
    · exact ⟨h1, h2, h3, h4⟩
    · obtain ⟨hs0, hit⟩ := h3 hsd
      refine ⟨?_, h2, ?_, ?_⟩
      · simp only [List.length_append, List.length_cons, List.length_nil]
        omega
      · intro _
        refine ⟨hs0, ?_⟩
        simp only [List.length_append, List.length_cons, List.length_nil]
        omega
      · intro hcontra
        simp only [hsd] at hcontra
        cases hcontra
  | deq r hd =>
    obtain ⟨hit, hcase⟩ := dequeue_some_cases _ r _ hd
    rcases hcase with ⟨hsd, hj, _, rfl⟩ | ⟨hsd, hj, _, rfl⟩ | ⟨j, rest, hj, _, rfl⟩
    · have h4' := h4 hsd
      rw [hj] at h4'
      simp only [List.length_nil] at h4'
      refine ⟨h1, by dsimp only; omega, ?_, ?_⟩
      · intro hcontra
        simp only [hsd] at hcontra
        cases hcontra
      · intro _
        dsimp only
        rw [hj]
        simp only [List.length_nil]
        omega
    · exfalso
      have h3' := h3 hsd
      rw [hj] at h3'
      simp only [List.length_nil] at h3'
      exact hit h3'.2
    · have hlen : s.jobs.length = rest.length + 1 := by

        rw [hj]
        simp
      refine ⟨by dsimp only; omega, h2, ?_, ?_⟩
      · intro hsd
        obtain ⟨hs0, hix⟩ := h3 hsd
        refine ⟨hs0, ?_⟩
        dsimp only
        omega
      · intro hsd
        have h4' := h4 hsd
        dsimp only
        omega
  | shut hsd =>
    obtain ⟨hs0, hit⟩ := h3 hsd
    refine ⟨h1, h2, ?_, ?_⟩
    · intro hcontra
      cases hcontra
    · intro _
      simp only [shutdown_queue]
      omega

theorem qreach_inv (s : QState) (h : QReach s) : QueueInv s := by
  unfold QReach at h
  induction h with
  | refl => exact queueInv_init
  | tail hab hbc ih => exact qstep_inv _ _ hbc ih

/- ### Concrete full-queue states -/

theorem pushN_fields : ∀ n, n ≤ UPLOAD_QUEUE_SIZE →
    (pushN n).jobs.length = n ∧ (pushN n).items = n ∧
    (pushN n).space = UPLOAD_QUEUE_SIZE - n ∧
    (pushN n).shutdown = false ∧ (pushN n).sentinels = 0 := by
  intro n
  induction n with
  | zero =>
    intro _
    exact ⟨rfl, rfl, by decide, rfl, rfl⟩
  | succ n ih =>
    intro hle
    have hn : n ≤ UPLOAD_QUEUE_SIZE := Nat.le_of_succ_le hle
    obtain ⟨hlen, hit, hsp, hsd, hsn⟩ := ih hn
    have hsp0 : (pushN n).space ≠ 0 := by
      rw [hsp]
      unfold UPLOAD_QUEUE_SIZE at hle ⊢
      omega
    have hstep := enqueue_ok (pushN n) "file" "" hsp0 hsd
    have heq : pushN (n + 1) =
        { pushN n with jobs := (pushN n).jobs ++ [{ path := "file", subdir := "" }],
                       items := (pushN n).items + 1,
                       space := (pushN n).space - 1 } := by
      show enqueueForce (pushN n) = _
      unfold enqueueForce
      rw [hstep]
    rw [heq]
    refine ⟨?_, ?_, ?_, hsd, hsn⟩
    · dsimp only
      simp only [List.length_append, List.length_cons, List.length_nil, hlen]
    · dsimp only
      rw [hit]
    · dsimp only
      rw [hsp]
      unfold UPLOAD_QUEUE_SIZE at hle ⊢
      omega

theorem pushN_reach : ∀ n, n ≤ UPLOAD_QUEUE_SIZE → QReach (pushN n) := by
  intro n
  induction n with
  | zero =>
    intro _
    exact Relation.ReflTransGen.refl
  | succ n ih =>
    intro hle
    have hn : n ≤ UPLOAD_QUEUE_SIZE := Nat.le_of_succ_le hle
    obtain ⟨hlen, hit, hsp, hsd, hsn⟩ := pushN_fields n hn
    have hsp0 : (pushN n).space ≠ 0 := by
      rw [hsp]
      unfold UPLOAD_QUEUE_SIZE at hle ⊢
      omega
    have hstep := enqueue_ok (pushN n) "file" "" hsp0 hsd
    have hq : QStep (pushN n) (pushN (n + 1)) := by
      have heq : pushN (n + 1) =
          { pushN n with
              jobs := (pushN n).jobs ++ [{ path := "file", subdir := "" }],
              items := (pushN n).items + 1,
              space := (pushN n).space - 1 } := by
        show enqueueForce (pushN n) = _
        unfold enqueueForce
        rw [hstep]
      rw [heq]
      exact QStep.enq "file" "" true hstep
    exact Relation.ReflTransGen.tail (ih hn) hq

/-- C4: in every reachable queue state the number of queued jobs never
exceeds the capacity UPLOAD_QUEUE_SIZE = 100; the concrete state reached by
pushing 100 jobs into a fresh queue is reachable, a 101st enqueue on it
blocks (sem_wait on the exhausted space semaphore, modelled as none), and
after one dequeue frees a unit of space an enqueue completes again. -/
theorem claim_C4_capacity_bound :
    (∀ s : QState, QReach s → s.jobs.length ≤ UPLOAD_QUEUE_SIZE)
    ∧ QReach (pushN UPLOAD_QUEUE_SIZE)
    ∧ enqueue_upload (pushN UPLOAD_QUEUE_SIZE) "file" "" = none
    ∧ (∃ j s', dequeue_upload (pushN UPLOAD_QUEUE_SIZE) = some (some j, s')
        ∧ (enqueue_upload s' "file" "").isSome = true) := by
  obtain ⟨hlen, hit, hsp, hsd, hsn⟩ :=
    pushN_fields UPLOAD_QUEUE_SIZE (Nat.le_refl _)
  refine ⟨?_, pushN_reach UPLOAD_QUEUE_SIZE (Nat.le_refl _), ?_, ?_⟩
  · intro s hreach
    obtain ⟨h1, _, _, _⟩ := qreach_inv s hreach
    omega
  · apply enqueue_full
    rw [hsp]
    omega
  · have hit0 : (pushN UPLOAD_QUEUE_SIZE).items ≠ 0 := by
      rw [hit]
      decide
    cases hj : (pushN UPLOAD_QUEUE_SIZE).jobs with
    | nil =>
      exfalso
      rw [hj] at hlen
      exact absurd hlen.symm (by decide)
    | cons j rest =>
      refine ⟨j,
        { pushN UPLOAD_QUEUE_SIZE with
            jobs := rest,
            items := (pushN UPLOAD_QUEUE_SIZE).items - 1,
            space := (pushN UPLOAD_QUEUE_SIZE).space + 1 }, ?_, ?_⟩
      · unfold dequeue_upload
        rw [if_neg hit0, if_neg (by rw [hj]; simp), hj]
      · rw [enqueue_ok _ "file" ""
            (by dsimp only; omega) (by dsimp only; exact hsd)]
        rfl

/-- C4 witness: the reachability hypothesis of the bound discharged at the
initial queue state. -/
theorem claim_C4_capacity_bound_witness :
    init_upload_queue.jobs.length ≤ UPLOAD_QUEUE_SIZE :=
  claim_C4_capacity_bound.1 init_upload_queue Relation.ReflTransGen.refl

/-- C2: in every reachable queue state with shutdown requested and an empty
queue, as long as fewer than MAX_CONCURRENT_UPLOADS sentinels have been
taken, a dequeue_upload call completes without blocking (the items semaphore
still carries a wake-up token) and returns the "no more work" sentinel
(first conjunct); shutdown_queue posts exactly MAX_CONCURRENT_UPLOADS = 4
wake-up tokens (second conjunct); and every worker count accepted by the -j
argument check is at most MAX_CONCURRENT_UPLOADS, so at least as many blocked
consumers are woken as there are workers (third conjunct).  Each of the at
most 4 workers takes at most one sentinel before exiting its loop, so no
worker blocks forever. -/
theorem claim_C2_shutdown_dequeue :
    (∀ s : QState, QReach s → s.shutdown = true → s.jobs = [] →
        s.sentinels < MAX_CONCURRENT_UPLOADS →
        dequeue_upload s = some (none,
          { s with items := s.items - 1, sentinels := s.sentinels + 1 }))
    ∧ (∀ s : QState,
        (shutdown_queue s).items = s.items + MAX_CONCURRENT_UPLOADS
        ∧ (shutdown_queue s).shutdown = true)
    ∧ (∀ jobs : Int, jobs_arg_ok jobs = true →
        jobs ≤ (MAX_CONCURRENT_UPLOADS : Int)) := by
  refine ⟨?_, fun s => ⟨rfl, rfl⟩, ?_⟩
  · intro s hreach hsd hjobs hsent
    obtain ⟨h1, h2, h3, h4⟩ := qreach_inv s hreach
    have h4' := h4 hsd
    rw [hjobs] at h4'
    simp only [List.length_nil] at h4'
    have hit0 : s.items ≠ 0 := by omega
    unfold dequeue_upload
    rw [if_neg hit0, if_pos ⟨hsd, hjobs⟩]
  · intro jobs h
    unfold jobs_arg_ok at h
    split at h
    · cases h
    · rename_i hcond
      push_neg at hcond
      exact hcond.2

/-- C2 witness: the first conjunct applied to the concrete reachable state
obtained by shutting down a fresh queue, and the third conjunct applied to
the maximal accepted jobs value. -/
theorem claim_C2_shutdown_dequeue_witness :
    (∃ s' : QState,
      dequeue_upload (shutdown_queue init_upload_queue) = some (none, s'))
    ∧ (4 : Int) ≤ (MAX_CONCURRENT_UPLOADS : Int) :=
  ⟨⟨_, claim_C2_shutdown_dequeue.1 (shutdown_queue init_upload_queue)
      (Relation.ReflTransGen.single (QStep.shut rfl)) rfl rfl (by decide)⟩,
   claim_C2_shutdown_dequeue.2.2 4 (by decide)⟩

/-- C3 counterexample: the claim "for every state of the queue in which
shutdown has been requested, a call to enqueue fails immediately — without
blocking" is false on the code.  The reachable state obtained by filling a
fresh queue with 100 jobs and then requesting shutdown has the shutdown flag
set, yet enqueue_upload blocks on the exhausted space semaphore (none),
because the C code performs sem_wait(space) before it ever reads the
shutdown flag. -/
theorem claim_C3_counterexample :
    QReach (shutdown_queue (pushN UPLOAD_QUEUE_SIZE))
    ∧ (shutdown_queue (pushN UPLOAD_QUEUE_SIZE)).shutdown = true
    ∧ enqueue_upload (shutdown_queue (pushN UPLOAD_QUEUE_SIZE)) "file" ""
        = none := by
  obtain ⟨hlen, hit, hsp, hsd, hsn⟩ :=
    pushN_fields UPLOAD_QUEUE_SIZE (Nat.le_refl _)
  refine ⟨?_, rfl, ?_⟩
  · exact Relation.ReflTransGen.tail
      (pushN_reach UPLOAD_QUEUE_SIZE (Nat.le_refl _)) (QStep.shut hsd)
  · apply enqueue_full
    simp only [shutdown_queue]
    rw [hsp]
    omega

/-- C3 amended: when shutdown has been requested AND the queue has free
capacity, enqueue fails immediately without appending the job and with no
net consumption of capacity (the resulting state is unchanged); when
shutdown has not been requested and capacity exists, enqueue appends the job
at the tail and signals one item available while consuming one unit of
capacity; but whenever the space semaphore is exhausted the call blocks —
the shutdown flag is only examined after a capacity token was obtained. -/
theorem claim_C3_enqueue_shutdown :
    ∀ (s : QState) (fp sd : String),
      (s.space ≠ 0 → s.shutdown = true →
        enqueue_upload s fp sd = some (false, s))
      ∧ (s.space ≠ 0 → s.shutdown = false →
        enqueue_upload s fp sd = some (true,
          { s with jobs := s.jobs ++ [{ path := fp, subdir := sd }],
                   items := s.items + 1, space := s.space - 1 }))
      ∧ (s.space = 0 → enqueue_upload s fp sd = none) := by
  intro s fp sd
  exact ⟨enqueue_shutdown s fp sd, enqueue_ok s fp sd, enqueue_full s fp sd⟩

/-- C3 witness: the amended behaviour evaluated on the concrete state of a
freshly shut-down queue (capacity available, shutdown set): the enqueue is
rejected with the state unchanged. -/
theorem claim_C3_enqueue_shutdown_witness :
    enqueue_upload (shutdown_queue init_upload_queue) "a.txt" "docs"
      = some (false, shutdown_queue init_upload_queue) :=
  (claim_C3_enqueue_shutdown (shutdown_queue init_upload_queue)
    "a.txt" "docs").1 (by decide) rfl

/- ### Directory walker lemmas -/

theorem fileAt_cons (e : FsEntry) {ds : List String} {f : String}
    {es : List FsEntry} (h : FileAt ds f es) : FileAt ds f (e :: es) := by
  cases h with
  | here f es hmem =>
    exact FileAt.here f _ (List.mem_cons_of_mem e hmem)
  | deeper d sub ds f es hmem hsub =>
    exact FileAt.deeper d sub ds f _ (List.mem_cons_of_mem e hmem) hsub

/-- Every job produced by the walker corresponds to an eligible regular file
in the tree; its subdir is the received prefix extended by the names of the
ancestor DIRECTORIES only, and its path is the base path joined with the
directory chain and the file name. -/
theorem collect_mem_sound_aux :
    ∀ (n : Nat) (es : List FsEntry), sizeOf es ≤ n →
    ∀ (dp pre : String) (j : Job),
      j ∈ collect_files_for_upload dp pre es →
      ∃ ds f, FileAt ds f es
        ∧ (∀ d ∈ ds, d ≠ "." ∧ d ≠ "..")
        ∧ f ≠ "." ∧ f ≠ ".."
        ∧ should_upload_file f.data = true
        ∧ j.subdir = List.foldl extendSubdir pre ds
        ∧ j.path = joinPath dp (ds ++ [f]) := by
  intro n
  induction n with
  | zero =>
    intro es hsz dp pre j hmem
    cases es with
    | nil =>
      simp only [collect_files_for_upload] at hmem
      exact absurd hmem (List.not_mem_nil j)
    | cons e rest =>
      simp only [List.cons.sizeOf_spec] at hsz
      omega
  | succ n ih =>
    intro es hsz dp pre j hmem
    cases es with
    | nil =>
      simp only [collect_files_for_upload] at hmem
      exact absurd hmem (List.not_mem_nil j)
    | cons e rest =>
      have hrest : sizeOf rest ≤ n := by
        simp only [List.cons.sizeOf_spec] at hsz
        omega
      cases e with
      | file f =>
        simp only [collect_files_for_upload] at hmem
        rcases List.mem_append.mp hmem with hmem1 | hmem2
        · by_cases hdot : f = "." ∨ f = ".."
          · rw [if_pos hdot] at hmem1
            exact absurd hmem1 (List.not_mem_nil j)
          · rw [if_neg hdot] at hmem1
            by_cases helig : should_upload_file f.data = true
            · rw [if_pos helig] at hmem1
              have hj : j = { path := dp ++ "/" ++ f, subdir := pre } := by
                simpa using hmem1
              push_neg at hdot
              refine ⟨[], f, FileAt.here f _ (List.mem_cons_self _ _), ?_,
                hdot.1, hdot.2, helig, ?_, ?_⟩
              · intro d hd
                exact absurd hd (List.not_mem_nil d)
              · rw [hj]
                rfl
              · rw [hj]
                rfl
            · rw [if_neg helig] at hmem1
              exact absurd hmem1 (List.not_mem_nil j)
        · obtain ⟨ds, f2, hfa, hds, h1, h2, helig, hsub, hpath⟩ :=
            ih rest hrest dp pre j hmem2
          exact ⟨ds, f2, fileAt_cons _ hfa, hds, h1, h2, helig, hsub, hpath⟩
      | dir d sub =>
        simp only [collect_files_for_upload] at hmem
        rcases List.mem_append.mp hmem with hmem1 | hmem2
        · by_cases hdot : d = "." ∨ d = ".."
          · rw [if_pos hdot] at hmem1
            exact absurd hmem1 (List.not_mem_nil j)
          · rw [if_neg hdot] at hmem1
            have hsub_sz : sizeOf sub ≤ n := by
              simp only [List.cons.sizeOf_spec, FsEntry.dir.sizeOf_spec] at hsz
              omega
            obtain ⟨ds, f2, hfa, hds, h1, h2, helig, hsubd, hpath⟩ :=
              ih sub hsub_sz (dp ++ "/" ++ d) (extendSubdir pre d) j hmem1
            push_neg at hdot
            refine ⟨d :: ds, f2,
              FileAt.deeper d sub ds f2 _ (List.mem_cons_self _ _) hfa,
              ?_, h1, h2, helig, ?_, ?_⟩
            · intro x hx
              rcases List.mem_cons.mp hx with rfl | hx2
              · exact hdot
              · exact hds x hx2
            · rw [hsubd]
              rfl
            · rw [hpath]
              rfl
        · obtain ⟨ds, f2, hfa, hds, h1, h2, helig, hsub, hpath⟩ :=
            ih rest hrest dp pre j hmem2
          exact ⟨ds, f2, fileAt_cons _ hfa, hds, h1, h2, helig, hsub, hpath⟩

theorem collect_mem_sound (es : List FsEntry) (dp pre : String) (j : Job)
    (h : j ∈ collect_files_for_upload dp pre es) :
    ∃ ds f, FileAt ds f es
      ∧ (∀ d ∈ ds, d ≠ "." ∧ d ≠ "..")
      ∧ f ≠ "." ∧ f ≠ ".."
      ∧ should_upload_file f.data = true
      ∧ j.subdir = List.foldl extendSubdir pre ds
      ∧ j.path = joinPath dp (ds ++ [f]) :=
  collect_mem_sound_aux (sizeOf es) es (Nat.le_refl _) dp pre j h

/-- When every file in the tree is eligible, the walker queues exactly one
job per regular-file entry. -/
theorem collect_length_aux :
    ∀ (n : Nat) (es : List FsEntry), sizeOf es ≤ n →
    (∀ ds f, FileAt ds f es → should_upload_file f.data = true) →
    ∀ dp pre, (collect_files_for_upload dp pre es).length = countFs es := by
  intro n
  induction n with
  | zero =>
    intro es hsz _ dp pre
    cases es with
    | nil => simp [collect_files_for_upload, countFs]
    | cons e rest =>
      simp only [List.cons.sizeOf_spec] at hsz
      omega
  | succ n ih =>
    intro es hsz helig dp pre
    cases es with
    | nil => simp [collect_files_for_upload, countFs]
    | cons e rest =>
      have hrest : sizeOf rest ≤ n := by
        simp only [List.cons.sizeOf_spec] at hsz
        omega
      have heligrest : ∀ ds f, FileAt ds f rest →
          should_upload_file f.data = true :=
        fun ds f hfa => helig ds f (fileAt_cons e hfa)
      cases e with
      | file f =>
        simp only [collect_files_for_upload, countFs, List.length_append]
        rw [ih rest hrest heligrest dp pre]
        by_cases hdot : f = "." ∨ f = ".."
        · rw [if_pos hdot, if_pos hdot]
          simp
        · rw [if_neg hdot, if_neg hdot]
          have helig1 : should_upload_file f.data = true :=
            helig [] f (FileAt.here f _ (List.mem_cons_self _ _))
          rw [if_pos helig1]
          simp
      | dir d sub =>
        have hsub_sz : sizeOf sub ≤ n := by
          simp only [List.cons.sizeOf_spec, FsEntry.dir.sizeOf_spec] at hsz
          omega
        have heligsub : ∀ ds f, FileAt ds f sub →
            should_upload_file f.data = true :=
          fun ds f hfa => helig (d :: ds) f
            (FileAt.deeper d sub ds f _ (List.mem_cons_self _ _) hfa)
        simp only [collect_files_for_upload, countFs, List.length_append]
        rw [ih rest hrest heligrest dp pre]
        by_cases hdot : d = "." ∨ d = ".."
        · rw [if_pos hdot, if_pos hdot]
          simp
        · rw [if_neg hdot, if_neg hdot,
            ih sub hsub_sz heligsub (dp ++ "/" ++ d) (extendSubdir pre d)]

theorem collect_length_eq_countFs (es : List FsEntry)
    (helig : ∀ ds f, FileAt ds f es → should_upload_file f.data = true)
    (dp pre : String) :
    (collect_files_for_upload dp pre es).length = countFs es :=
  collect_length_aux (sizeOf es) es (Nat.le_refl _) helig dp pre

/-- When no file in the tree is eligible, the walker queues nothing. -/
theorem collect_nil_of_no_eligible (es : List FsEntry) (dp pre : String)
    (h : ∀ ds f, FileAt ds f es → should_upload_file f.data = false) :
    collect_files_for_upload dp pre es = [] := by
  cases hc : collect_files_for_upload dp pre es with
  | nil => rfl
  | cons j t =>
    exfalso
    have hmem : j ∈ collect_files_for_upload dp pre es := by
      rw [hc]
      exact List.mem_cons_self _ _
    obtain ⟨ds, f, hfa, _, _, _, helig, _, _⟩ :=
      collect_mem_sound es dp pre j hmem
    rw [h ds f hfa] at helig
    cases helig

/- ### Pipeline lemmas -/

/-- Every code path of upload_file_optimized increments exactly one of the
two shared counters exactly once. -/
theorem upload_delta_one (fp sd : String) (m : FileMeta) (out : CurlOutcome) :
    (upload_file_optimized fp sd m out).uploadedDelta
      + (upload_file_optimized fp sd m out).failedDelta = 1 := by
  unfold upload_file_optimized
  split
  · rfl
  · split
    · rfl
    · split
      · rfl
      · split <;> rfl

theorem pinit_inv (dp pre : String) (es : List FsEntry) :
    PInv (collect_files_for_upload dp pre es).length
      (init_pipeline dp pre es) := by
  refine ⟨?_, queueInv_init, ?_⟩
  · simp [init_pipeline, init_upload_queue]
  · intro h
    cases h

theorem pstep_inv (W N : Nat) (s s' : PState) (h : PStep W s s')
    (hI : PInv N s) : PInv N s' := by
  obtain ⟨hcount, hQ, hshut⟩ := hI
  cases h with
  | produce j rest r hpend he =>
    obtain ⟨hsp, hcase⟩ := enqueue_some_cases _ _ _ _ _ he
    rcases hcase with ⟨hsd, _, rfl⟩ | ⟨hsd, _, rfl⟩
    · exfalso
      rw [hshut hsd] at hpend
      cases hpend
    · refine ⟨?_, qstep_inv _ _ (QStep.enq _ _ _ he) hQ, ?_⟩
      · dsimp only
        rw [hpend] at hcount
        simp only [List.length_append, List.length_cons,
          List.length_nil] at hcount ⊢
        omega
      · intro hsd2
        dsimp only at hsd2
        rw [hsd] at hsd2
        cases hsd2
  | work w j m out hw hd =>
    obtain ⟨hit, hcase⟩ := dequeue_some_cases _ _ _ hd
    rcases hcase with ⟨hsd, hj, hr, rfl⟩ | ⟨hsd, hj, hr, rfl⟩
      | ⟨j2, rest2, hj, hr, rfl⟩
    · exact absurd hr (by simp)
    · exact absurd hr (by simp)
    · cases hr
      have hdelta := upload_delta_one j.path j.subdir m out
      refine ⟨?_, qstep_inv _ _ (QStep.deq _ hd) hQ, ?_⟩
      · dsimp only
        rw [hj] at hcount
        simp only [List.length_cons] at hcount
        omega
      · intro hsd2
        dsimp only at hsd2 ⊢
        exact hshut hsd2
  | workerExit w hw hd =>
    obtain ⟨hit, hcase⟩ := dequeue_some_cases _ _ _ hd
    rcases hcase with ⟨hsd, hj, hr, rfl⟩ | ⟨hsd, hj, hr, rfl⟩
      | ⟨j2, rest2, hj, hr, rfl⟩
    · refine ⟨?_, qstep_inv _ _ (QStep.deq _ hd) hQ, ?_⟩
      · dsimp only
        exact hcount
      · intro hsd2
        dsimp only at hsd2 ⊢
        exact hshut hsd2
    · refine ⟨?_, qstep_inv _ _ (QStep.deq _ hd) hQ, ?_⟩
      · dsimp only
        exact hcount
      · intro hsd2
        dsimp only at hsd2 ⊢
        exact hshut hsd2
    · exact absurd hr (by simp)
  | shutdownStep hpend hsd =>
    refine ⟨?_, qstep_inv _ _ (QStep.shut hsd) hQ, ?_⟩
    · dsimp only [shutdown_queue]
      exact hcount
    · intro _
      dsimp only
      exact hpend

theorem preach_inv (W : Nat) (dp pre : String) (es : List FsEntry)
    (s : PState) (h : PReach W (init_pipeline dp pre es) s) :
    PInv (collect_files_for_upload dp pre es).length s := by
  unfold PReach at h
  induction h with
  | refl => exact pinit_inv dp pre es
  | tail hab hbc ih => exact pstep_inv W _ _ _ hbc ih

/-- C5: characterization of the walker output.  Every job the walker
enqueues corresponds to an eligible regular file reached through a chain of
directories ds: its subdir annotation equals the initial prefix extended,
via extendSubdir (prefix/name, or name on an empty prefix), by the names of
the ANCESTOR DIRECTORIES ONLY — that is, exactly the subdir_prefix received
by the immediate caller that enqueued the file, not the prefix further
extended with the file name — while each recursive call into a directory d
receives the one-step-extended prefix (the foldl over ds). -/
theorem claim_C5_walker_subdir (es : List FsEntry) (dp pre : String)
    (j : Job) (h : j ∈ collect_files_for_upload dp pre es) :
    ∃ ds f, FileAt ds f es
      ∧ (∀ d ∈ ds, d ≠ "." ∧ d ≠ "..")
      ∧ f ≠ "." ∧ f ≠ ".."
      ∧ should_upload_file f.data = true
      ∧ j.subdir = List.foldl extendSubdir pre ds
      ∧ j.path = joinPath dp (ds ++ [f]) :=
  collect_mem_sound es dp pre j h

/-- C5 witness: in the tree root/d/a.txt the queued job carries subdir "d"
(the prefix received by the call that walked directory d), not "d/a.txt". -/
theorem claim_C5_walker_subdir_witness :
    ∃ ds f, FileAt ds f [FsEntry.dir "d" [FsEntry.file "a.txt"]]
      ∧ (∀ x ∈ ds, x ≠ "." ∧ x ≠ "..")
      ∧ f ≠ "." ∧ f ≠ ".."
      ∧ should_upload_file f.data = true
      ∧ (Job.mk "root/d/a.txt" "d").subdir = List.foldl extendSubdir "" ds
      ∧ (Job.mk "root/d/a.txt" "d").path = joinPath "root" (ds ++ [f]) :=
  claim_C5_walker_subdir [FsEntry.dir "d" [FsEntry.file "a.txt"]] "root" ""
    (Job.mk "root/d/a.txt" "d")
    (by simp [collect_files_for_upload, extendSubdir,
      (by decide : should_upload_file "a.txt".data = true)])

/-- C6: a file whose stat-reported size strictly exceeds the 100 MiB ceiling
fails before any transport call — the network is never invoked — and is
counted as exactly one failure and zero successes (first conjunct); an
unreadable file likewise fails with no network activity and exactly one
failure (second conjunct). -/
theorem claim_C6_precondition_failures :
    (∀ (fp sd : String) (m : FileMeta) (out : CurlOutcome),
      m.statOk = true → MAX_FILE_SIZE < m.size →
      (upload_file_optimized fp sd m out).networkInvoked = false
      ∧ (upload_file_optimized fp sd m out).failedDelta = 1
      ∧ (upload_file_optimized fp sd m out).uploadedDelta = 0
      ∧ (upload_file_optimized fp sd m out).success = false)
    ∧ (∀ (fp sd : String) (m : FileMeta) (out : CurlOutcome),
      m.readable = false →
      (upload_file_optimized fp sd m out).networkInvoked = false
      ∧ (upload_file_optimized fp sd m out).failedDelta = 1
      ∧ (upload_file_optimized fp sd m out).uploadedDelta = 0
      ∧ (upload_file_optimized fp sd m out).success = false) := by
  constructor
  · intro fp sd m out hstat hsize
    have hcf : check_file_size m = false := by
      unfold check_file_size
      rw [if_neg (by simp [hstat]), if_pos hsize]
    unfold upload_file_optimized
    rw [if_pos hcf]
    exact ⟨rfl, rfl, rfl, rfl⟩
  · intro fp sd m out hread
    unfold upload_file_optimized
    by_cases hcf : check_file_size m = false
    · rw [if_pos hcf]
      exact ⟨rfl, rfl, rfl, rfl⟩
    · rw [if_neg hcf, if_pos hread]
      exact ⟨rfl, rfl, rfl, rfl⟩

/-- C6 witness: a 100 MiB + 1 byte file with a transport that would answer
HTTP 200: the attempt still fails with no network activity. -/
theorem claim_C6_precondition_failures_witness :
    (upload_file_optimized "big.bin" ""
        { statOk := true, size := MAX_FILE_SIZE + 1, readable := true }
        (CurlOutcome.httpResp 200 [])).networkInvoked = false
    ∧ (upload_file_optimized "big.bin" ""
        { statOk := true, size := MAX_FILE_SIZE + 1, readable := true }
        (CurlOutcome.httpResp 200 [])).failedDelta = 1
    ∧ (upload_file_optimized "big.bin" ""
        { statOk := true, size := MAX_FILE_SIZE + 1, readable := true }
        (CurlOutcome.httpResp 200 [])).uploadedDelta = 0
    ∧ (upload_file_optimized "big.bin" ""
        { statOk := true, size := MAX_FILE_SIZE + 1, readable := true }
        (CurlOutcome.httpResp 200 [])).success = false :=
  claim_C6_precondition_failures.1 "big.bin" ""
    { statOk := true, size := MAX_FILE_SIZE + 1, readable := true }
    (CurlOutcome.httpResp 200 []) rfl (Nat.lt_succ_self _)

/-- C1: for any worker-pool size W between 1 and MAX_CONCURRENT_UPLOADS and
any directory tree all of whose files are eligible, every completed pipeline
run — a reachable state in which the producer has finished, the queue has
drained and shutdown was requested — has successful plus failed upload
attempts equal to the number of files in the tree.  Jobs are consumed
atomically from the queue head by exactly one worker (PStep.work removes the
job as it is attempted), so no job is lost and none is attempted twice. -/
theorem claim_C1_no_job_lost_or_duplicated :
    ∀ W : Nat, 1 ≤ W → W ≤ MAX_CONCURRENT_UPLOADS →
    ∀ (dp pre : String) (es : List FsEntry),
      (∀ ds f, FileAt ds f es → should_upload_file f.data = true) →
      ∀ s : PState, PReach W (init_pipeline dp pre es) s →
        s.pending = [] → s.q.jobs = [] → s.q.shutdown = true →
        s.uploaded + s.failed = countFs es := by
  intro W hW1 hW4 dp pre es helig s hreach hp hj hs
  have hN := collect_length_eq_countFs es helig dp pre
  obtain ⟨hcount, _, _⟩ := preach_inv W dp pre es s hreach
  rw [hp, hj] at hcount
  simp only [List.length_nil] at hcount
  omega

/-- C1 witness: a complete one-worker run over the tree containing the single
eligible file "a": produce, shutdown, then one successful worker attempt;
the final counters satisfy uploaded + failed = countFs. -/
theorem claim_C1_no_job_lost_or_duplicated_witness :
    pipelineWitnessState.uploaded + pipelineWitnessState.failed
      = countFs [FsEntry.file "a"] := by
  have hcollect : collect_files_for_upload "r" "" [FsEntry.file "a"]
      = [{ path := "r/a", subdir := "" }] := by
    simp [collect_files_for_upload,
      (by decide : should_upload_file "a".data = true)]
  have helig : ∀ ds f, FileAt ds f [FsEntry.file "a"] →
      should_upload_file f.data = true := by
    intro ds f hfa
    cases hfa with
    | here f es hmem =>
      simp only [List.mem_singleton, FsEntry.file.injEq] at hmem
      subst hmem
      decide
    | deeper d sub ds f es hmem hsub =>
      simp at hmem
  have step1 : PStep 1
      { q := init_upload_queue,
        pending := [{ path := "r/a", subdir := "" }],
        uploaded := 0, failed := 0 }
      { q := { jobs := [{ path := "r/a", subdir := "" }], items := 1,
               space := 99, shutdown := false, sentinels := 0 },
        pending := [], uploaded := 0, failed := 0 } :=
    PStep.produce { path := "r/a", subdir := "" } [] true rfl (by decide)
  have step2 : PStep 1
      { q := { jobs := [{ path := "r/a", subdir := "" }], items := 1,
               space := 99, shutdown := false, sentinels := 0 },
        pending := [], uploaded := 0, failed := 0 }
      { q := { jobs := [{ path := "r/a", subdir := "" }], items := 5,
               space := 99, shutdown := true, sentinels := 0 },
        pending := [], uploaded := 0, failed := 0 } :=
    PStep.shutdownStep rfl rfl
  have step3 : PStep 1
      { q := { jobs := [{ path := "r/a", subdir := "" }], items := 5,
               space := 99, shutdown := true, sentinels := 0 },
        pending := [], uploaded := 0, failed := 0 }
      pipelineWitnessState :=
    PStep.work 0 { path := "r/a", subdir := "" }
      { statOk := true, size := 0, readable := true }
      (CurlOutcome.httpResp 200 []) (by decide) (by decide)
  have hreach : PReach 1 (init_pipeline "r" "" [FsEntry.file "a"])
      pipelineWitnessState := by
    have h0 : init_pipeline "r" "" [FsEntry.file "a"]
        = { q := init_upload_queue,
            pending := [{ path := "r/a", subdir := "" }],
            uploaded := 0, failed := 0 } := by
      unfold init_pipeline
      rw [hcollect]
    unfold PReach
    rw [h0]
    exact Relation.ReflTransGen.tail
      (Relation.ReflTransGen.tail (Relation.ReflTransGen.single step1) step2)
      step3
  exact claim_C1_no_job_lost_or_duplicated 1 (by decide) (by decide)
    "r" "" [FsEntry.file "a"] helig pipelineWitnessState hreach rfl rfl rfl

/-- For an accessible target, main prints the summary pair computed from the
success flag and the failure counter. -/
theorem main_model_accessible (k : TargetKind)
    (hk : k ≠ TargetKind.inaccessible) (fq : Nat) (fo : Bool) (fl : Nat) :
    main_model k fq fo fl =
      (if main_success_flag k fq fo = true ∧ fl = 0 then 0 else 1,
       some (if main_success_flag k fq fo = true ∧ fl = 0
             then "SUCCESS" else "PARTIAL/FAILURE")) := by
  cases k with
  | inaccessible => exact absurd rfl hk
  | directory => rfl
  | regularFile => rfl
  | otherKind => rfl

/-- C9: the process exit code is 0 exactly when the target was accessible,
the processing success flag is set (for a directory: at least one file
queued; for a regular file: the single attempt succeeded) and zero failures
were recorded, and 1 in every other case (first two conjuncts); the summary
reports SUCCESS only under the same condition (third conjunct); and for
every accessible target a summary is printed — the run completes and
reports, it never aborts early on per-file failures (fourth conjunct). -/
theorem claim_C9_exit_code :
    ∀ (k : TargetKind) (files_queued : Nat) (fileOk : Bool) (failed : Nat),
      ((main_model k files_queued fileOk failed).1 = 0 ↔
        (k ≠ TargetKind.inaccessible
          ∧ main_success_flag k files_queued fileOk = true ∧ failed = 0))
      ∧ ((main_model k files_queued fileOk failed).1 = 0
          ∨ (main_model k files_queued fileOk failed).1 = 1)
      ∧ ((main_model k files_queued fileOk failed).2 = some "SUCCESS" →
          (k ≠ TargetKind.inaccessible
            ∧ main_success_flag k files_queued fileOk = true ∧ failed = 0))
      ∧ (k ≠ TargetKind.inaccessible →
          ((main_model k files_queued fileOk failed).2).isSome = true) := by
  intro k fq fo fl
  by_cases hk : k = TargetKind.inaccessible
  · subst hk
    refine ⟨?_, Or.inr rfl, ?_, ?_⟩
    · simp [main_model]
    · intro h
      simp [main_model] at h
    · intro h
      exact absurd rfl h
  · rw [main_model_accessible k hk]
    by_cases hok : main_success_flag k fq fo = true ∧ fl = 0
    · rw [if_pos hok, if_pos hok]
      refine ⟨?_, Or.inl rfl, ?_, fun _ => rfl⟩
      · simp [hk, hok.1, hok.2]
      · intro _
        exact ⟨hk, hok.1, hok.2⟩
    · rw [if_neg hok, if_neg hok]
      refine ⟨?_, Or.inr rfl, ?_, fun _ => rfl⟩
      · constructor
        · intro h
          simp at h
        · rintro ⟨-, hA, hB⟩
          exact absurd ⟨hA, hB⟩ hok
      · intro h
        simp at h

/-- C9 witness: a successful single-file run reports SUCCESS, and the third
conjunct of the claim theorem recovers accessibility, the success flag and
the zero failure count from it. -/
theorem claim_C9_exit_code_witness :
    TargetKind.regularFile ≠ TargetKind.inaccessible
    ∧ main_success_flag TargetKind.regularFile 0 true = true
    ∧ (0 : Nat) = 0 :=
  (claim_C9_exit_code TargetKind.regularFile 0 true 0).2.2.1 (by decide)

/-- C10: when the walker queues zero files — in particular whenever the
accessible target directory contains no eligible files at all — the
directory pipeline reports failure: upload_dir_parallel returns 0 because
files_queued is 0, so even with zero recorded failures main prints
PARTIAL/FAILURE and exits with code 1. -/
theorem claim_C10_zero_files_failure :
    ∀ (es : List FsEntry) (dp : String) (fileOk : Bool),
      (∀ ds f, FileAt ds f es → should_upload_file f.data = false) →
      collect_files_for_upload dp "" es = []
      ∧ main_model TargetKind.directory
          (collect_files_for_upload dp "" es).length fileOk 0
        = (1, some "PARTIAL/FAILURE") := by
  intro es dp fileOk h
  have hnil := collect_nil_of_no_eligible es dp "" h
  refine ⟨hnil, ?_⟩
  rw [hnil]
  rfl

/-- C10 witness: a directory holding only the ineligible files ".hidden" and
"b.tmp" queues nothing, and the run exits 1 with PARTIAL/FAILURE despite
zero recorded failures. -/
theorem claim_C10_zero_files_failure_witness :
    collect_files_for_upload "root" ""
        [FsEntry.file ".hidden", FsEntry.file "b.tmp"] = []
    ∧ main_model TargetKind.directory
        (collect_files_for_upload "root" ""
          [FsEntry.file ".hidden", FsEntry.file "b.tmp"]).length true 0
      = (1, some "PARTIAL/FAILURE") :=
  claim_C10_zero_files_failure [FsEntry.file ".hidden", FsEntry.file "b.tmp"]
    "root" true (by
      intro ds f hfa
      cases hfa with
      | here f es hmem =>
        simp only [List.mem_cons, List.not_mem_nil, or_false,
          FsEntry.file.injEq] at hmem
        rcases hmem with rfl | rfl <;> decide
      | deeper d sub ds f es hmem hsub =>
        simp at hmem)
